import Mathlib

/-!
Verification of the hybrid retrieval and fusion core of the Albedo /
CertiSense system (query expansion, dense+lexical score fusion,
reciprocal-rank fusion, near-duplicate removal, credit grouping, and the
demo front-end's API wrapper and file-upload handler).

The retrieval core (`src/query_expansion.py`, `src/hybrid_retrieval.py`,
`src/reciprocal_rank_fusion.py`, `src/result_deduplication.py`,
`src/leed_rag_api.py`) is not present in the repository snapshot; only its
documentation is. Those components are therefore modelled from the spec, as
marked on each definition. The demo front-end (`demo_landing_page/script.js`)
is present and its two relevant handlers are embedded from the source.

Scores and similarities are embedded as rationals; identifiers are
abstracted as naturals (ascending order of naturals models the spec's
lexicographic identifier order).
-/

namespace Albedo

/-- Chunk identifiers, abstracted as naturals. -/
abbrev ChunkId := Nat

/-- Credit identifiers, abstracted as naturals. -/
abbrev CreditId := Nat

/-- Structural role of a chunk within a credit.  The spec's `calc` section is
named `calcs` here because `calc` is a Lean keyword. -/
inductive Section where
  | requirements
  | intent
  | documentation
  | calcs
  | thresholds
  | definitions
  | unknown
deriving DecidableEq

/-- Chunk record, per the spec's data model (display-only fields omitted;
`section` is named `sec` because `section` is a Lean keyword; the source
document is abstracted as a natural identifier). -/
structure Chunk where
  chunk_id : ChunkId
  credit_id : CreditId
  sec : Section
  page_start : Nat
  page_end : Nat
  source_document : Nat
  embedding : List ℚ
deriving DecidableEq

/-- Chunk paired with a (raw, normalized or fused) score. -/
structure Scored where
  chunk : Chunk
  score : ℚ
deriving DecidableEq

/-! ### Order-preserving deduplication (first occurrence wins) -/

/-- Keep the first occurrence of each element, dropping later duplicates;
`seen` accumulates the elements already emitted. -/
def dedupFirstAux {α : Type} [DecidableEq α] (seen : List α) : List α → List α
  | [] => []
  | x :: xs => if x ∈ seen then dedupFirstAux seen xs else x :: dedupFirstAux (x :: seen) xs

/-- Order-preserving deduplication keeping first occurrences. -/
def dedupFirst {α : Type} [DecidableEq α] (l : List α) : List α := dedupFirstAux [] l

theorem dedupFirstAux_subset {α : Type} [DecidableEq α] (seen : List α) (l : List α) :
    ∀ x ∈ dedupFirstAux seen l, x ∈ l := by
  induction l generalizing seen with
  | nil => intro x hx; simp [dedupFirstAux] at hx
  | cons a as ih =>
    intro x hx
    by_cases ha : a ∈ seen
    · simp only [dedupFirstAux, if_pos ha] at hx
      exact List.mem_cons_of_mem _ (ih seen x hx)
    · simp only [dedupFirstAux, if_neg ha, List.mem_cons] at hx
      rcases hx with h | h
      · exact h ▸ List.mem_cons_self _ _
      · exact List.mem_cons_of_mem _ (ih _ x h)

theorem dedupFirstAux_not_seen {α : Type} [DecidableEq α] (seen : List α) (l : List α) :
    ∀ x ∈ dedupFirstAux seen l, x ∉ seen := by
  induction l generalizing seen with
  | nil => intro x hx; simp [dedupFirstAux] at hx
  | cons a as ih =>
    intro x hx
    by_cases ha : a ∈ seen
    · simp only [dedupFirstAux, if_pos ha] at hx
      exact ih seen x hx
    · simp only [dedupFirstAux, if_neg ha, List.mem_cons] at hx
      rcases hx with h | h
      · exact h ▸ ha
      · intro hs
        exact ih _ x h (List.mem_cons_of_mem _ hs)

theorem dedupFirstAux_nodup {α : Type} [DecidableEq α] (seen : List α) (l : List α) :
    (dedupFirstAux seen l).Nodup := by
  induction l generalizing seen with
  | nil => simp [dedupFirstAux]
  | cons a as ih =>
    by_cases ha : a ∈ seen
    · simpa [dedupFirstAux, if_pos ha] using ih seen
    · simp only [dedupFirstAux, if_neg ha]
      refine List.nodup_cons.2 ⟨?_, ih _⟩
      intro hmem
      exact dedupFirstAux_not_seen _ _ a hmem (List.mem_cons_self _ _)

theorem dedupFirst_nodup {α : Type} [DecidableEq α] (l : List α) : (dedupFirst l).Nodup :=
  dedupFirstAux_nodup [] l

theorem dedupFirst_subset {α : Type} [DecidableEq α] (l : List α) :
    ∀ x ∈ dedupFirst l, x ∈ l :=
  dedupFirstAux_subset [] l

theorem mem_dedupFirstAux {α : Type} [DecidableEq α] (seen : List α) (l : List α) :
    ∀ x ∈ l, x ∉ seen → x ∈ dedupFirstAux seen l := by
  induction l generalizing seen with
  | nil => intro x hx; simp at hx
  | cons a as ih =>
    intro x hx hs
    by_cases ha : a ∈ seen
    · simp only [dedupFirstAux, if_pos ha]
      rcases List.mem_cons.1 hx with h | h
      · exact absurd (h ▸ ha) hs
      · exact ih seen x h hs
    · simp only [dedupFirstAux, if_neg ha]
      rcases List.mem_cons.1 hx with h | h
      · exact h ▸ List.mem_cons_self _ _
      · by_cases hxa : x = a
        · exact hxa ▸ List.mem_cons_self _ _
        · refine List.mem_cons_of_mem _ (ih _ x h ?_)
          simp [hxa, hs]

theorem mem_dedupFirst {α : Type} [DecidableEq α] (l : List α) :
    ∀ x ∈ l, x ∈ dedupFirst l := fun x hx => mem_dedupFirstAux [] l x hx (by simp)

/-! ### QueryExpander

Modelled from the spec: `expand_query` scans the query for known
requirement-code tokens and category keywords using a static lookup table;
for each match it synthesizes canonical reformulations; if no rule matches
it falls back to the original query alone.  The output is an ordered,
deduplicated list that always includes the original query (placed first),
truncated so that at least one and at most `maxSubqueries` sub-queries are
returned. -/

/-- Split a character stream into space-separated words (accumulator holds
the current word reversed). -/
def splitWordsAux (cur : List Char) : List Char → List (List Char)
  | [] => [cur.reverse]
  | c :: cs => if c = ' ' then cur.reverse :: splitWordsAux [] cs else splitWordsAux (c :: cur) cs

/-- Whitespace tokenization of a query string. -/
def queryTokens (q : String) : List String :=
  ((splitWordsAux [] q.toList).filter (fun w => w ≠ [])).map String.mk

/-- Modelled from the spec: the static lookup table of requirement-code
tokens and category keywords, each mapped to its canonical reformulations
(representative rows taken from the documented example expansions). -/
def expansionTable : List (String × List String) :=
  [("energy",
     ["EA Minimum Energy Performance requirements LEED v4.1 BD+C",
      "EA Optimize Energy Performance requirements thresholds"]),
   ("water",
     ["WE Indoor Water Use Reduction requirements",
      "WE Outdoor Water Use Reduction requirements"]),
   ("EA", ["EA credit requirements LEED v4.1"]),
   ("WE", ["WE credit requirements LEED v4.1"]),
   ("MR", ["MR credit requirements LEED v4.1"]),
   ("requirements", ["requirements thresholds LEED v4.1 BD+C"])]

/-- Reformulations produced by every table row whose keyword occurs as a
token of the query. -/
def matchedExpansions (q : String) : List String :=
  ((expansionTable.filter (fun row => row.1 ∈ queryTokens q)).map (fun row => row.2)).flatten

/-- Modelled from the spec: `expand_query` (src/query_expansion.py, absent
from the snapshot).  The original query always comes first; the list is
deduplicated keeping first occurrences and truncated to `maxSubqueries`
entries, never fewer than one so that the original query is always
included. -/
def expand_query (q : String) (maxSubqueries : Nat) : List String :=
  (dedupFirst (q :: matchedExpansions q)).take (max 1 maxSubqueries)

theorem dedupFirst_cons (q : String) (l : List String) :
    dedupFirst (q :: l) = q :: dedupFirstAux [q] l := by
  simp [dedupFirst, dedupFirstAux]

/-! ### Reciprocal rank fusion (cross-list stage)

Modelled from the spec: `reciprocal_rank_fusion`
(src/reciprocal_rank_fusion.py, absent from the snapshot) iterates over the
ranked lists, walking each list with a 1-based rank counter and adding
`1/(k + rank)` to the accumulated score of the chunk at that rank, starting
every chunk at score zero. -/

/-- Walk one ranked list starting at rank `r`, adding `1/(k + rank)` to the
running score of the chunk found at each rank. -/
def rrfAddList (k : ℚ) : Nat → List ChunkId → (ChunkId → ℚ) → (ChunkId → ℚ)
  | _, [], s => s
  | r, c :: rest, s =>
      rrfAddList k (r + 1) rest (fun x => if x = c then s x + 1 / (k + (r : ℚ)) else s x)

/-- Modelled from the spec: the cross-list RRF stage, accumulating the
contributions of every ranked list into one score per chunk. -/
def rrfFuse (k : ℚ) (lists : List (List ChunkId)) : ChunkId → ℚ :=
  lists.foldl (fun s l => rrfAddList k 1 l s) (fun _ => 0)

/-- Zero-based index of the first occurrence of `c` in a list. -/
def idxOf (c : ChunkId) : List ChunkId → Option Nat
  | [] => none
  | x :: xs => if x = c then some 0 else (idxOf c xs).map (fun i => i + 1)

/-- The spec's per-list RRF term: `1/(k + rank)` when the chunk appears in
the list at 1-based rank `rank`, and zero when it is absent. -/
def rrfContribSpec (k : ℚ) (c : ChunkId) (l : List ChunkId) : ℚ :=
  match idxOf c l with
  | some i => 1 / (k + ((i + 1 : Nat) : ℚ))
  | none => 0

theorem idxOf_eq_none (c : ChunkId) (l : List ChunkId) :
    idxOf c l = none ↔ c ∉ l := by
  induction l with
  | nil => simp [idxOf]
  | cons x xs ih =>
    by_cases hx : x = c
    · simp [idxOf, hx]
    · have hcx : ¬c = x := fun h => hx h.symm
      simp [idxOf, hx, ih, hcx]

theorem rrfAddList_apply (k : ℚ) (l : List ChunkId) (hl : l.Nodup) :
    ∀ (r : Nat) (s : ChunkId → ℚ) (c : ChunkId),
      rrfAddList k r l s c =
        s c + (match idxOf c l with
               | some i => 1 / (k + ((r + i : Nat) : ℚ))
               | none => 0) := by
  induction l with
  | nil => intro r s c; simp [rrfAddList, idxOf]
  | cons x xs ih =>
    intro r s c
    have hx : x ∉ xs := (List.nodup_cons.1 hl).1
    have hxs : xs.Nodup := (List.nodup_cons.1 hl).2
    rw [rrfAddList, ih hxs]
    by_cases hc : c = x
    · subst hc
      have hnone : idxOf c xs = none := (idxOf_eq_none c xs).2 hx
      simp [idxOf, hnone]
    · have hxc : ¬(x = c) := fun h => hc h.symm
      simp only [if_neg hc, idxOf, if_neg hxc]
      cases hidx : idxOf c xs with
      | none => simp
      | some i =>
        have h2 : r + 1 + i = r + (i + 1) := by omega
        simp [hidx, h2]

theorem rrfFuse_foldl (k : ℚ) (lists : List (List ChunkId))
    (h : ∀ l ∈ lists, l.Nodup) :
    ∀ (s : ChunkId → ℚ) (c : ChunkId),
      lists.foldl (fun s l => rrfAddList k 1 l s) s c =
        s c + (lists.map (rrfContribSpec k c)).sum := by
  induction lists with
  | nil => intro s c; simp
  | cons l ls ih =>
    intro s c
    have hl : l.Nodup := h l (List.mem_cons_self _ _)
    have hls : ∀ m ∈ ls, m.Nodup := fun m hm => h m (List.mem_cons_of_mem _ hm)
    simp only [List.foldl_cons, List.map_cons, List.sum_cons]
    rw [ih hls, rrfAddList_apply k l hl]
    unfold rrfContribSpec
    cases hidx : idxOf c l with
    | none => simp [hidx]
    | some i =>
      simp only [hidx]
      have : 1 + i = i + 1 := by omega
      rw [this, add_assoc]

/-- C1: with the default constant `k = 60`, the cross-list RRF stage assigns
to each chunk the sum, over every ranked list in which the chunk appears, of
`1/(60 + rank of the chunk in that list)`, absence from a list contributing
nothing (each ranked list lists each chunk at most once). -/
theorem rrf_cross_list_score (lists : List (List ChunkId)) (c : ChunkId)
    (h : ∀ l ∈ lists, l.Nodup) :
    rrfFuse 60 lists c = (lists.map (rrfContribSpec 60 c)).sum := by
  have := rrfFuse_foldl 60 lists h (fun _ => 0) c
  simpa [rrfFuse] using this

/-- C1 witness: a chunk at rank 1 in one list and rank 3 in another receives
fused score `1/61 + 1/63`. -/
theorem rrf_cross_list_score_witness :
    rrfFuse 60 [[10], [11, 12, 10]] 10 = 1 / 61 + 1 / 63 := by
  rw [rrf_cross_list_score [[10], [11, 12, 10]] 10 (by decide)]
  simp [rrfContribSpec, idxOf]
  norm_num

/-- C8 (amended to `maxSubqueries ≥ 1`): `expand_query` returns an ordered,
deduplicated list of between 1 and `maxSubqueries` sub-queries that always
contains the original query, and a query matching no expansion rule returns
only the original query.  Purity and determinism hold by construction, the
model being a function of the query and `maxSubqueries` alone. -/
theorem queryExpander_spec (q : String) (m : Nat) (h : 1 ≤ m) :
    (expand_query q m).Nodup ∧
    q ∈ expand_query q m ∧
    1 ≤ (expand_query q m).length ∧
    (expand_query q m).length ≤ m ∧
    (matchedExpansions q = [] → expand_query q m = [q]) := by
  have hmax : max 1 m = m := Nat.max_eq_right h
  refine ⟨?_, ?_, ?_, ?_, ?_⟩
  · exact (List.take_sublist _ _).nodup (dedupFirst_nodup _)
  · rw [expand_query, dedupFirst_cons, hmax]
    cases m with
    | zero => omega
    | succ n => simp [List.take_succ_cons]
  · rw [expand_query, dedupFirst_cons, hmax]
    cases m with
    | zero => omega
    | succ n => simp [List.take_succ_cons]
  · rw [expand_query, hmax]
    exact (List.length_take_le _ _)
  · intro hempty
    rw [expand_query, hempty, hmax]
    have : dedupFirst [q] = [q] := by simp [dedupFirst, dedupFirstAux]
    rw [this]
    cases m with
    | zero => omega
    | succ n => simp [List.take_succ_cons]

/-- C8 witness: a query matching no expansion rule passes through unchanged
under the default `maxSubqueries = 6`. -/
theorem queryExpander_spec_witness :
    1 ≤ 6 ∧ "solar panels cost" ∈ expand_query "solar panels cost" 6 :=
  ⟨by decide, (queryExpander_spec "solar panels cost" 6 (by decide)).2.1⟩

/-- C8 counterexample: at `maxSubqueries = 0` the claimed bounds are
unsatisfiable — the expansion still returns the original query, so its
length is 1 and not at most 0. -/
theorem queryExpander_zero_counterexample :
    (expand_query "solar panels cost" 0).length = 1 ∧
    ¬((expand_query "solar panels cost" 0).length ≤ 0) := by
  constructor
  · rfl
  · decide

/-! ### ScoreFuser, intra-list weighted stage

Modelled from the spec: when both backends answer the same sub-query, each
backend's score list is min-max normalized to `[0,1]` over that list and the
hybrid score is `denseWeight · norm(dense) + lexicalWeight · norm(lexical)`;
a chunk present in only one backend's list keeps that backend's normalized
score alone.  The spec leaves a degenerate list (all scores equal) open; the
model normalizes such a list to 1. -/

/-- Least score in a list (0 for the empty list). -/
def minScore : List Scored → ℚ
  | [] => 0
  | x :: xs => xs.foldl (fun m y => min m y.score) x.score

/-- Greatest score in a list (0 for the empty list). -/
def maxScore : List Scored → ℚ
  | [] => 0
  | x :: xs => xs.foldl (fun m y => max m y.score) x.score

/-- Min-max normalization of a score over a list. -/
def normIn (l : List Scored) (s : ℚ) : ℚ :=
  if maxScore l = minScore l then 1 else (s - minScore l) / (maxScore l - minScore l)

/-- First entry of a list carrying the given chunk identifier. -/
def lookupChunk (l : List Scored) (cid : ChunkId) : Option Scored :=
  l.find? (fun s => s.chunk.chunk_id == cid)

/-- Modelled from the spec: the intra-list weighted fusion of one
sub-query's dense and lexical result lists (src/hybrid_retrieval.py, absent
from the snapshot). -/
def fuseIntra (dw lw : ℚ) (dense lex : List Scored) : List Scored :=
  (dense.map (fun d =>
    match lookupChunk lex d.chunk.chunk_id with
    | some e => ⟨d.chunk, dw * normIn dense d.score + lw * normIn lex e.score⟩
    | none => ⟨d.chunk, normIn dense d.score⟩))
  ++ ((lex.filter (fun e => (lookupChunk dense e.chunk.chunk_id).isNone)).map
    (fun e => ⟨e.chunk, normIn lex e.score⟩))

theorem foldl_min_le_init (xs : List Scored) :
    ∀ a : ℚ, xs.foldl (fun m y => min m y.score) a ≤ a := by
  induction xs with
  | nil => intro a; simp
  | cons x xs ih =>
    intro a
    calc xs.foldl (fun m y => min m y.score) (min a x.score) ≤ min a x.score := ih _
    _ ≤ a := min_le_left _ _

theorem foldl_min_le_mem (xs : List Scored) :
    ∀ (a : ℚ) (y : Scored), y ∈ xs → xs.foldl (fun m y => min m y.score) a ≤ y.score := by
  induction xs with
  | nil => intro a y hy; simp at hy
  | cons x xs ih =>
    intro a y hy
    rcases List.mem_cons.1 hy with h | h
    · subst h
      calc xs.foldl (fun m y => min m y.score) (min a y.score) ≤ min a y.score :=
            foldl_min_le_init _ _
      _ ≤ y.score := min_le_right _ _
    · exact ih _ y h

theorem init_le_foldl_max (xs : List Scored) :
    ∀ a : ℚ, a ≤ xs.foldl (fun m y => max m y.score) a := by
  induction xs with
  | nil => intro a; simp
  | cons x xs ih =>
    intro a
    calc a ≤ max a x.score := le_max_left _ _
    _ ≤ xs.foldl (fun m y => max m y.score) (max a x.score) := ih _

theorem mem_le_foldl_max (xs : List Scored) :
    ∀ (a : ℚ) (y : Scored), y ∈ xs → y.score ≤ xs.foldl (fun m y => max m y.score) a := by
  induction xs with
  | nil => intro a y hy; simp at hy
  | cons x xs ih =>
    intro a y hy
    rcases List.mem_cons.1 hy with h | h
    · subst h
      calc y.score ≤ max a y.score := le_max_right _ _
      _ ≤ xs.foldl (fun m y => max m y.score) (max a y.score) := init_le_foldl_max _ _
    · exact ih _ y h

theorem minScore_le_of_mem {l : List Scored} {s : Scored} (hs : s ∈ l) :
    minScore l ≤ s.score := by
  cases l with
  | nil => simp at hs
  | cons x xs =>
    rcases List.mem_cons.1 hs with h | h
    · exact h ▸ foldl_min_le_init xs x.score
    · exact foldl_min_le_mem xs x.score s h

theorem le_maxScore_of_mem {l : List Scored} {s : Scored} (hs : s ∈ l) :
    s.score ≤ maxScore l := by
  cases l with
  | nil => simp at hs
  | cons x xs =>
    rcases List.mem_cons.1 hs with h | h
    · exact h ▸ init_le_foldl_max xs x.score
    · exact mem_le_foldl_max xs x.score s h

theorem normIn_mem_unit {l : List Scored} {s : Scored} (hs : s ∈ l)
    (hlt : minScore l < maxScore l) :
    0 ≤ normIn l s.score ∧ normIn l s.score ≤ 1 := by
  have hne : ¬maxScore l = minScore l := ne_of_gt hlt
  have hden : (0 : ℚ) < maxScore l - minScore l := sub_pos.2 hlt
  constructor
  · rw [normIn, if_neg hne]
    exact div_nonneg (sub_nonneg.2 (minScore_le_of_mem hs)) (le_of_lt hden)
  · rw [normIn, if_neg hne]
    rw [div_le_one hden]
    exact sub_le_sub_right (le_maxScore_of_mem hs) _

theorem lookupChunk_eq_some {l : List Scored} {e : Scored}
    (hn : (l.map (fun s => s.chunk.chunk_id)).Nodup) (he : e ∈ l) :
    lookupChunk l e.chunk.chunk_id = some e := by
  induction l with
  | nil => simp at he
  | cons x xs ih =>
    rcases List.mem_cons.1 he with h | h
    · subst h
      simp [lookupChunk, List.find?]
    · have hx : x.chunk.chunk_id ∉ xs.map (fun s => s.chunk.chunk_id) :=
        (List.nodup_cons.1 hn).1
      have hne : (x.chunk.chunk_id == e.chunk.chunk_id) = false := by
        rw [beq_eq_false_iff_ne]
        intro hid
        exact hx (hid ▸ List.mem_map_of_mem _ h)
      have := ih (List.nodup_cons.1 hn).2 h
      simpa [lookupChunk, List.find?, hne] using this

/-- C2: the intra-list stage min-max normalizes each backend's scores into
`[0,1]` over its own list (lists assumed non-degenerate, i.e. not all scores
equal) and emits, for a chunk present in both lists, the weighted hybrid
score `dw·norm(dense) + lw·norm(lexical)`; a chunk present in only one
backend's list keeps that backend's normalized score alone, with no
synthetic value for the missing side. -/
theorem scoreFuser_intra_spec (dw lw : ℚ) (dense lex : List Scored)
    (hln : (lex.map (fun s => s.chunk.chunk_id)).Nodup)
    (hd : minScore dense < maxScore dense)
    (hl : minScore lex < maxScore lex) :
    (∀ d ∈ dense, 0 ≤ normIn dense d.score ∧ normIn dense d.score ≤ 1) ∧
    (∀ e ∈ lex, 0 ≤ normIn lex e.score ∧ normIn lex e.score ≤ 1) ∧
    (∀ d ∈ dense, ∀ e ∈ lex, e.chunk.chunk_id = d.chunk.chunk_id →
      (⟨d.chunk, dw * normIn dense d.score + lw * normIn lex e.score⟩ : Scored) ∈
        fuseIntra dw lw dense lex) ∧
    (∀ d ∈ dense, (∀ e ∈ lex, e.chunk.chunk_id ≠ d.chunk.chunk_id) →
      (⟨d.chunk, normIn dense d.score⟩ : Scored) ∈ fuseIntra dw lw dense lex) ∧
    (∀ e ∈ lex, (∀ d ∈ dense, d.chunk.chunk_id ≠ e.chunk.chunk_id) →
      (⟨e.chunk, normIn lex e.score⟩ : Scored) ∈ fuseIntra dw lw dense lex) := by
  refine ⟨fun d hd' => normIn_mem_unit hd' hd, fun e he => normIn_mem_unit he hl, ?_, ?_, ?_⟩
  · intro d hdm e hem hid
    have hlook : lookupChunk lex d.chunk.chunk_id = some e := by
      have := lookupChunk_eq_some hln hem
      rwa [hid] at this
    refine List.mem_append_left _ ?_
    have := List.mem_map_of_mem (fun d =>
      match lookupChunk lex d.chunk.chunk_id with
      | some e => (⟨d.chunk, dw * normIn dense d.score + lw * normIn lex e.score⟩ : Scored)
      | none => ⟨d.chunk, normIn dense d.score⟩) hdm
    simpa only [hlook] using this
  · intro d hdm hnone
    have hlook : lookupChunk lex d.chunk.chunk_id = none := by
      rw [lookupChunk, List.find?_eq_none]
      intro e hem
      simpa using hnone e hem
    refine List.mem_append_left _ ?_
    have := List.mem_map_of_mem (fun d =>
      match lookupChunk lex d.chunk.chunk_id with
      | some e => (⟨d.chunk, dw * normIn dense d.score + lw * normIn lex e.score⟩ : Scored)
      | none => ⟨d.chunk, normIn dense d.score⟩) hdm
    simpa only [hlook] using this
  · intro e hem hnone
    have hlook : (lookupChunk dense e.chunk.chunk_id).isNone = true := by
      rw [lookupChunk, List.find?_eq_none.2]
      · rfl
      · intro d hdm
        simpa using hnone d hdm
    refine List.mem_append_right _ ?_
    exact List.mem_map_of_mem _ (List.mem_filter.2 ⟨hem, hlook⟩)

/-- Concrete chunk family used by the witnesses: distinct identifiers,
credits, pages and source documents. -/
def exChunk (i : Nat) : Chunk := ⟨i, 10 + i, Section.requirements, i, i, i, []⟩

/-- Dense backend list of the C2 scenario (normalized score of chunk 1 is
0.6 over this list). -/
def denseListEx : List Scored :=
  [⟨exChunk 2, 1⟩, ⟨exChunk 1, 3 / 5⟩, ⟨exChunk 3, 0⟩]

/-- Lexical backend list of the C2 scenario (chunk 1 ranks first, normalized
relevance 1). -/
def lexListEx : List Scored :=
  [⟨exChunk 1, 5⟩, ⟨exChunk 4, 0⟩]

/-- C2 witness: normalized dense 0.6 and normalized lexical 1.0 under
weights 0.7/0.3 yield hybrid score 0.72. -/
theorem scoreFuser_intra_spec_witness :
    (⟨exChunk 1, 18 / 25⟩ : Scored) ∈ fuseIntra (7 / 10) (3 / 10) denseListEx lexListEx := by
  have hln : (lexListEx.map (fun s => s.chunk.chunk_id)).Nodup := by
    simp [lexListEx, exChunk]
  have hmind : minScore denseListEx = 0 := by
    simp only [denseListEx, minScore, List.foldl_cons, List.foldl_nil]
    norm_num
  have hmaxd : maxScore denseListEx = 1 := by
    simp only [denseListEx, maxScore, List.foldl_cons, List.foldl_nil]
    norm_num
  have hminl : minScore lexListEx = 0 := by
    simp only [lexListEx, minScore, List.foldl_cons, List.foldl_nil]
    norm_num
  have hmaxl : maxScore lexListEx = 5 := by
    simp only [lexListEx, maxScore, List.foldl_cons, List.foldl_nil]
    norm_num
  have hd : minScore denseListEx < maxScore denseListEx := by
    rw [hmind, hmaxd]; norm_num
  have hl : minScore lexListEx < maxScore lexListEx := by
    rw [hminl, hmaxl]; norm_num
  have h := (scoreFuser_intra_spec (7 / 10) (3 / 10) denseListEx lexListEx hln hd hl).2.2.1
    ⟨exChunk 1, 3 / 5⟩ (by simp [denseListEx]) ⟨exChunk 1, 5⟩ (by simp [lexListEx]) rfl
  have hnd : normIn denseListEx ((3 : ℚ) / 5) = 3 / 5 := by
    rw [normIn, hmind, hmaxd, if_neg (by norm_num : ¬(1 : ℚ) = 0)]
    norm_num
  have hnl : normIn lexListEx ((5 : ℚ)) = 1 := by
    rw [normIn, hminl, hmaxl, if_neg (by norm_num : ¬(5 : ℚ) = 0)]
    norm_num
  norm_num [hnd, hnl] at h
  convert h using 2

/-! ### Deduplicator

Modelled from the spec: `remove_near_duplicates`
(src/result_deduplication.py, absent from the snapshot) walks the fused,
sorted list keeping a chunk only when no already-kept chunk collapses with
it; two chunks collapse when Rule A applies (same `credit_id`, same
`section`, cosine similarity above `dedupThreshold`) or Rule B applies
(same `source_document` and identical page range).  Embeddings are
unit-length by the data-model invariant, so cosine similarity is embedded
as the dot product. -/

/-- Dot product of two embeddings; equal to cosine similarity because the
spec makes embeddings unit-length. -/
def cosineSim (a b : List ℚ) : ℚ := (List.zipWith (fun x y => x * y) a b).sum

/-- Rule A: same credit, same section, similarity above the threshold. -/
def ruleA (thr : ℚ) (a b : Chunk) : Bool :=
  a.credit_id == b.credit_id && a.sec == b.sec &&
    decide (thr < cosineSim a.embedding b.embedding)

/-- Rule B: same source document and identical page range. -/
def ruleB (a b : Chunk) : Bool :=
  a.source_document == b.source_document && a.page_start == b.page_start &&
    a.page_end == b.page_end

/-- A chunk collapses with another when Rule A or Rule B applies (Rule A
checked first, per the spec's precedence). -/
def collides (thr : ℚ) (a b : Chunk) : Bool := ruleA thr a b || ruleB a b

/-- Greedy pass over the sorted list: keep an entry only when no
already-kept entry collapses with it. -/
def dedupAux (thr : ℚ) (kept : List Scored) : List Scored → List Scored
  | [] => []
  | x :: rest =>
    if kept.any (fun k => collides thr k.chunk x.chunk) then dedupAux thr kept rest
    else x :: dedupAux thr (x :: kept) rest

/-- Modelled from the spec: near-duplicate removal over the fused, sorted
list, retaining the earliest (hence highest-scored) representative. -/
def remove_near_duplicates (thr : ℚ) (l : List Scored) : List Scored := dedupAux thr [] l

/-- A list is clean relative to `kept` when each entry collides neither
with `kept` nor with any earlier entry of the list. -/
def goodList (thr : ℚ) (kept : List Scored) : List Scored → Bool
  | [] => true
  | x :: rest =>
    !(kept.any fun k => collides thr k.chunk x.chunk) && goodList thr (x :: kept) rest

theorem goodList_dedupAux (thr : ℚ) (l : List Scored) :
    ∀ kept, goodList thr kept (dedupAux thr kept l) = true := by
  induction l with
  | nil => intro kept; simp [dedupAux, goodList]
  | cons x rest ih =>
    intro kept
    cases hany : kept.any (fun k => collides thr k.chunk x.chunk) with
    | true => simpa [dedupAux, hany] using ih kept
    | false =>
      simp only [dedupAux, hany, if_false, Bool.false_eq_true]
      simp [goodList, hany, ih (x :: kept)]

theorem dedupAux_of_goodList (thr : ℚ) (l : List Scored) :
    ∀ kept, goodList thr kept l = true → dedupAux thr kept l = l := by
  induction l with
  | nil => intro kept _; rfl
  | cons x rest ih =>
    intro kept hg
    simp only [goodList, Bool.and_eq_true, Bool.not_eq_true'] at hg
    simp only [dedupAux, hg.1, if_false, Bool.false_eq_true]
    rw [ih (x :: kept) hg.2]

/-- C5: deduplication is idempotent — re-applying it to its own output
changes nothing, for every threshold and every input list. -/
theorem deduplicator_idempotent (thr : ℚ) (l : List Scored) :
    remove_near_duplicates thr (remove_near_duplicates thr l) =
      remove_near_duplicates thr l := by
  rw [remove_near_duplicates, remove_near_duplicates]
  exact dedupAux_of_goodList thr _ [] (goodList_dedupAux thr l [])

theorem goodList_pairwise (thr : ℚ) (l : List Scored) :
    ∀ kept, goodList thr kept l = true →
      l.Pairwise (fun a b => collides thr a.chunk b.chunk = false) ∧
      ∀ x ∈ l, ∀ k ∈ kept, collides thr k.chunk x.chunk = false := by
  induction l with
  | nil => intro kept _; simp
  | cons x rest ih =>
    intro kept hg
    simp only [goodList, Bool.and_eq_true, Bool.not_eq_true'] at hg
    have hany : ∀ k ∈ kept, collides thr k.chunk x.chunk = false := by
      intro k hk
      have := List.any_eq_false.1 hg.1 k hk
      simpa using this
    have := ih (x :: kept) hg.2
    refine ⟨List.Pairwise.cons ?_ this.1, ?_⟩
    · intro y hy
      exact this.2 y hy x (List.mem_cons_self _ _)
    · intro z hz k hk
      rcases List.mem_cons.1 hz with h | h
      · exact h ▸ hany k hk
      · exact this.2 z h k (List.mem_cons_of_mem _ hk)

/-- Chunks of the C4 counterexample: same credit and section but orthogonal
embeddings (similarity 0, below the 0.97 threshold). -/
def dupChunkA : Chunk := ⟨20, 50, Section.requirements, 100, 101, 5, [1, 0]⟩

/-- Second counterexample chunk; distinct pages and source document, so
Rule B does not apply either. -/
def dupChunkB : Chunk := ⟨21, 50, Section.requirements, 102, 103, 6, [0, 1]⟩

/-- Chunks of the C4 scenario: same credit and section, cosine similarity
0.991 (above the 0.97 threshold). -/
def nearChunkA : Chunk := ⟨30, 60, Section.requirements, 10, 12, 7, [1, 0]⟩

/-- Second scenario chunk, a near-duplicate of the first. -/
def nearChunkB : Chunk := ⟨31, 60, Section.requirements, 20, 22, 8, [991 / 1000, 1 / 10]⟩

/-- C4 counterexample: under the default threshold 0.97, two chunks sharing
`credit_id` and `section` whose embeddings have cosine similarity 0 both
survive deduplication, so the (credit_id, section) pair keeps two
representatives — the claimed invariant fails without a similarity
condition. -/
theorem deduplicator_pair_counterexample :
    ¬(((remove_near_duplicates ((97 : ℚ) / 100)
          [⟨dupChunkA, 9 / 10⟩, ⟨dupChunkB, 4 / 5⟩]).filter
        (fun s => s.chunk.credit_id == 50 && s.chunk.sec == Section.requirements)).length ≤ 1) := by
  have hcol : collides ((97 : ℚ) / 100) dupChunkA dupChunkB = false := by
    simp only [collides, ruleA, ruleB, dupChunkA, dupChunkB]
    norm_num [cosineSim]
  have h1 : remove_near_duplicates ((97 : ℚ) / 100)
      [⟨dupChunkA, 9 / 10⟩, ⟨dupChunkB, 4 / 5⟩] =
      [⟨dupChunkA, 9 / 10⟩, ⟨dupChunkB, 4 / 5⟩] := by
    simp [remove_near_duplicates, dedupAux, hcol]
  rw [h1]
  simp [dupChunkA, dupChunkB]

/-- C4 (amended): after deduplication with the default threshold 0.97, any
two surviving chunks that share `credit_id` and `section` have cosine
similarity at most 0.97 — at most one representative survives from each
cluster of near-duplicates exceeding the threshold — and in the 0.991
scenario only the higher-scored chunk survives. -/
theorem deduplicator_rule_a_spec :
    (∀ l : List Scored,
      (remove_near_duplicates ((97 : ℚ) / 100) l).Pairwise
        (fun a b => a.chunk.credit_id = b.chunk.credit_id →
          a.chunk.sec = b.chunk.sec →
          cosineSim a.chunk.embedding b.chunk.embedding ≤ 97 / 100)) ∧
    remove_near_duplicates ((97 : ℚ) / 100)
        [⟨nearChunkA, 9 / 10⟩, ⟨nearChunkB, 4 / 5⟩] = [⟨nearChunkA, 9 / 10⟩] := by
  constructor
  · intro l
    have hp := (goodList_pairwise ((97 : ℚ) / 100)
        (remove_near_duplicates ((97 : ℚ) / 100) l) []
        (goodList_dedupAux ((97 : ℚ) / 100) l [])).1
    refine hp.imp ?_
    intro a b hab hc hs
    simp only [collides, Bool.or_eq_false_iff, ruleA, hc, hs] at hab
    have := hab.1
    simp only [beq_self_eq_true, Bool.true_and, decide_eq_false_iff_not, not_lt] at this
    simpa using this
  · have hcol : collides ((97 : ℚ) / 100) nearChunkA nearChunkB = true := by
      simp only [collides, ruleA, ruleB, nearChunkA, nearChunkB]
      norm_num [cosineSim]
    simp [remove_near_duplicates, dedupAux, hcol]

/-- C4 witness: the amended pairwise guarantee instantiated on the concrete
0.991 scenario input. -/
theorem deduplicator_rule_a_spec_witness :
    (remove_near_duplicates ((97 : ℚ) / 100)
        [⟨nearChunkA, 9 / 10⟩, ⟨nearChunkB, 4 / 5⟩]).Pairwise
      (fun a b => a.chunk.credit_id = b.chunk.credit_id →
        a.chunk.sec = b.chunk.sec →
        cosineSim a.chunk.embedding b.chunk.embedding ≤ 97 / 100) :=
  deduplicator_rule_a_spec.1 _

/-! ### CreditGrouper

Modelled from the spec: the deduplicated list is partitioned by
`credit_id`; each group's `representative_score` is its highest member's
fused score; the top `topCredits` groups are selected by representative
score with ties broken by ascending `credit_id`; within a surviving group
chunks are ordered by the fixed section-priority table and truncated to
`maxChunksPerCredit`. -/

/-- Fixed section-priority table (requirements highest, unknown lowest). -/
def sectionPriority : Section → Nat
  | Section.requirements => 10
  | Section.intent => 9
  | Section.documentation => 8
  | Section.calcs => 7
  | Section.thresholds => 6
  | Section.definitions => 5
  | Section.unknown => 1

/-- Group of chunks sharing one credit, with its representative score. -/
structure ResultGroup where
  credit_id : CreditId
  representative_score : ℚ
  chunks : List Scored
deriving DecidableEq

/-- Members of the list belonging to one credit, in list order. -/
def membersOf (l : List Scored) (cid : CreditId) : List Scored :=
  l.filter (fun s => s.chunk.credit_id == cid)

/-- Modelled from the spec: partition by `credit_id` (first-appearance
order), each group carrying the maximum member score as representative. -/
def mkGroups (l : List Scored) : List ResultGroup :=
  (dedupFirst (l.map (fun s => s.chunk.credit_id))).map
    (fun cid => ⟨cid, maxScore (membersOf l cid), membersOf l cid⟩)

/-- Group ordering: higher representative score first, ties broken by
ascending `credit_id`. -/
def groupLE (g h : ResultGroup) : Prop :=
  h.representative_score < g.representative_score ∨
    (h.representative_score = g.representative_score ∧ g.credit_id ≤ h.credit_id)

instance : DecidableRel groupLE := fun g h => by
  unfold groupLE
  infer_instance

instance : IsTotal ResultGroup groupLE := by
  constructor
  intro a b
  rcases lt_trichotomy a.representative_score b.representative_score with h | h | h
  · exact Or.inr (Or.inl h)
  · rcases Nat.le_total a.credit_id b.credit_id with hc | hc
    · exact Or.inl (Or.inr ⟨h.symm, hc⟩)
    · exact Or.inr (Or.inr ⟨h, hc⟩)
  · exact Or.inl (Or.inl h)

instance : IsTrans ResultGroup groupLE := by
  constructor
  intro a b c hab hbc
  rcases hab with hab | ⟨hab, hab'⟩
  · rcases hbc with hbc | ⟨hbc, _⟩
    · exact Or.inl (lt_trans hbc hab)
    · exact Or.inl (hbc ▸ hab)
  · rcases hbc with hbc | ⟨hbc, hbc'⟩
    · exact Or.inl (hab ▸ hbc)
    · exact Or.inr ⟨hbc.trans hab, le_trans hab' hbc'⟩

/-- Intra-group chunk ordering: higher section priority first. -/
def chunkPriorityGE (a b : Scored) : Prop :=
  sectionPriority b.chunk.sec ≤ sectionPriority a.chunk.sec

instance : DecidableRel chunkPriorityGE := fun a b => by
  unfold chunkPriorityGE
  infer_instance

instance : IsTotal Scored chunkPriorityGE := by
  constructor
  intro a b
  exact Nat.le_total _ _

instance : IsTrans Scored chunkPriorityGE := by
  constructor
  intro a b c hab hbc
  exact le_trans hbc hab

/-- Order a surviving group's chunks by section priority and truncate to
`maxChunksPerCredit`. -/
def truncateGroup (maxPer : Nat) (g : ResultGroup) : ResultGroup :=
  ⟨g.credit_id, g.representative_score,
    (List.insertionSort chunkPriorityGE g.chunks).take maxPer⟩

/-- Modelled from the spec: the CreditGrouper — partition, rank groups by
representative score (ties by ascending credit), keep the top `topCredits`
groups, order each kept group's chunks by section priority and truncate to
`maxChunksPerCredit`. -/
def credit_grouper (top maxPer : Nat) (l : List Scored) : List ResultGroup :=
  ((List.insertionSort groupLE (mkGroups l)).take top).map (truncateGroup maxPer)

theorem foldl_max_attained (xs : List Scored) :
    ∀ a : ℚ, xs.foldl (fun m y => max m y.score) a = a ∨
      ∃ y ∈ xs, xs.foldl (fun m y => max m y.score) a = y.score := by
  induction xs with
  | nil => intro a; left; rfl
  | cons x xs ih =>
    intro a
    rcases ih (max a x.score) with h | ⟨y, hy, h⟩
    · rcases max_choice a x.score with hm | hm
      · left
        simpa [hm] using h
      · right
        exact ⟨x, List.mem_cons_self _ _, by simpa [hm] using h⟩
    · right
      exact ⟨y, List.mem_cons_of_mem _ hy, by simpa using h⟩

theorem maxScore_attained {l : List Scored} (hne : l ≠ []) :
    ∃ s ∈ l, s.score = maxScore l := by
  cases l with
  | nil => exact absurd rfl hne
  | cons x xs =>
    rcases foldl_max_attained xs x.score with h | ⟨y, hy, h⟩
    · exact ⟨x, List.mem_cons_self _ _, by simp [maxScore, h]⟩
    · exact ⟨y, List.mem_cons_of_mem _ hy, by simp [maxScore, h]⟩

theorem mem_mkGroups_chunks {l : List Scored} {g : ResultGroup} (hg : g ∈ mkGroups l) :
    g.chunks = membersOf l g.credit_id ∧
    g.representative_score = maxScore g.chunks ∧ g.chunks ≠ [] := by
  rcases List.mem_map.1 hg with ⟨cid, hcid, hgeq⟩
  have hsub := dedupFirst_subset _ cid hcid
  rcases List.mem_map.1 hsub with ⟨s, hs, hsc⟩
  have hmem : s ∈ membersOf l cid := by
    rw [membersOf, List.mem_filter]
    exact ⟨hs, by simp [hsc]⟩
  subst hgeq
  exact ⟨rfl, rfl, List.ne_nil_of_mem hmem⟩

theorem groupLE_truncate (m : Nat) (a b : ResultGroup) (h : groupLE a b) :
    groupLE (truncateGroup m a) (truncateGroup m b) := h

/-- Scenario input for C7: four chunks with distinct credits and fused
scores 0.9, 0.8, 0.75, 0.5. -/
def groupScenarioInput : List Scored :=
  [⟨exChunk 1, 9 / 10⟩, ⟨exChunk 2, 4 / 5⟩, ⟨exChunk 3, 3 / 4⟩, ⟨exChunk 4, 1 / 2⟩]

/-- C7: the CreditGrouper partitions the deduplicated list by `credit_id`
(each member lands in the group of its credit, each group holds exactly the
members of its credit), sets each group's representative score to its
highest member's fused score (attained by a member and bounding all
members), emits the selected groups in `groupLE` order (higher
representative first, ties by ascending credit), keeps at most `topCredits`
groups, every kept group beating every dropped one, and on four groups with
representative scores 0.9, 0.8, 0.75, 0.5 and `topCredits = 3` returns
exactly the first three groups in that order. -/
theorem creditGrouper_spec (top maxPer : Nat) (l : List Scored) :
    (∀ g ∈ mkGroups l,
      (∃ s ∈ g.chunks, s.score = g.representative_score) ∧
      ∀ s ∈ g.chunks, s.score ≤ g.representative_score) ∧
    (∀ g ∈ mkGroups l, g.chunks = l.filter (fun s => s.chunk.credit_id == g.credit_id)) ∧
    (∀ s ∈ l, ∃ g ∈ mkGroups l, g.credit_id = s.chunk.credit_id ∧ s ∈ g.chunks) ∧
    (credit_grouper top maxPer l).Pairwise groupLE ∧
    (credit_grouper top maxPer l).length ≤ top ∧
    (∀ g ∈ credit_grouper top maxPer l,
      ∀ g' ∈ (List.insertionSort groupLE (mkGroups l)).drop top, groupLE g g') ∧
    credit_grouper 3 2 groupScenarioInput =
      [⟨11, 9 / 10, [⟨exChunk 1, 9 / 10⟩]⟩,
       ⟨12, 4 / 5, [⟨exChunk 2, 4 / 5⟩]⟩,
       ⟨13, 3 / 4, [⟨exChunk 3, 3 / 4⟩]⟩] := by
  have hsorted : List.Sorted groupLE (List.insertionSort groupLE (mkGroups l)) :=
    List.sorted_insertionSort groupLE _
  refine ⟨?_, ?_, ?_, ?_, ?_, ?_, ?_⟩
  · intro g hg
    obtain ⟨_, hrep, hne⟩ := mem_mkGroups_chunks hg
    constructor
    · obtain ⟨s, hs, hscore⟩ := maxScore_attained hne
      exact ⟨s, hs, by rw [hscore, hrep]⟩
    · intro s hs
      rw [hrep]
      exact le_maxScore_of_mem hs
  · intro g hg
    exact (mem_mkGroups_chunks hg).1
  · intro s hs
    have hcid : s.chunk.credit_id ∈ dedupFirst (l.map (fun s => s.chunk.credit_id)) :=
      mem_dedupFirst _ _ (List.mem_map_of_mem _ hs)
    refine ⟨⟨s.chunk.credit_id, maxScore (membersOf l s.chunk.credit_id),
        membersOf l s.chunk.credit_id⟩, List.mem_map_of_mem _ hcid, rfl, ?_⟩
    rw [membersOf, List.mem_filter]
    exact ⟨hs, by simp⟩
  · exact ((hsorted.sublist (List.take_sublist top _)).map _ (groupLE_truncate maxPer))
  · calc (credit_grouper top maxPer l).length
        = ((List.insertionSort groupLE (mkGroups l)).take top).length := by
          rw [credit_grouper, List.length_map]
    _ ≤ top := List.length_take_le _ _
  · intro g hg g' hg'
    rcases List.mem_map.1 hg with ⟨g₀, hg₀, hgeq⟩
    have hsplit : List.insertionSort groupLE (mkGroups l) =
        (List.insertionSort groupLE (mkGroups l)).take top ++
        (List.insertionSort groupLE (mkGroups l)).drop top :=
      (List.take_append_drop _ _).symm
    have hpw := hsorted
    rw [List.Sorted, hsplit, List.pairwise_append] at hpw
    have := hpw.2.2 g₀ hg₀ g' hg'
    exact hgeq ▸ groupLE_truncate maxPer g₀ g' this
  · have hmk : mkGroups groupScenarioInput =
        [⟨11, 9 / 10, [⟨exChunk 1, 9 / 10⟩]⟩,
         ⟨12, 4 / 5, [⟨exChunk 2, 4 / 5⟩]⟩,
         ⟨13, 3 / 4, [⟨exChunk 3, 3 / 4⟩]⟩,
         ⟨14, 1 / 2, [⟨exChunk 4, 1 / 2⟩]⟩] := rfl
    have hs4 : List.Sorted groupLE
        [(⟨11, 9 / 10, [⟨exChunk 1, 9 / 10⟩]⟩ : ResultGroup),
         ⟨12, 4 / 5, [⟨exChunk 2, 4 / 5⟩]⟩,
         ⟨13, 3 / 4, [⟨exChunk 3, 3 / 4⟩]⟩,
         ⟨14, 1 / 2, [⟨exChunk 4, 1 / 2⟩]⟩] := by
      simp only [List.sorted_cons, List.mem_cons, List.mem_singleton, List.sorted_singleton,
        List.not_mem_nil, groupLE]
      norm_num
    rw [credit_grouper, hmk, hs4.insertionSort_eq]
    rfl

/-- C7 witness: in the concrete scenario, chunk 1 lands in the group of its
credit 11. -/
theorem creditGrouper_spec_witness :
    ∃ g ∈ mkGroups groupScenarioInput,
      g.credit_id = 11 ∧ (⟨exChunk 1, 9 / 10⟩ : Scored) ∈ g.chunks := by
  have h := (creditGrouper_spec 3 2 groupScenarioInput).2.2.1 ⟨exChunk 1, 9 / 10⟩
    (by simp [groupScenarioInput])
  simpa [exChunk] using h

/-! ### The search pipeline

Modelled from the spec: `search` (src/leed_rag_api.py, absent from the
snapshot) validates its options first — only a configuration error is ever
surfaced — then expands the query, retrieves from both backends per
sub-query (an absent, failing or timed-out backend contributes an empty
list), fuses intra-list, fuses across sub-queries with RRF, deduplicates,
groups by credit, and truncates to `limit`. -/

/-- Search options with their documented defaults. -/
structure Config where
  limit : Nat
  maxSubqueries : Nat
  denseWeight : ℚ
  lexicalWeight : ℚ
  topCredits : Nat
  maxChunksPerCredit : Nat
  rrfK : ℚ
  dedupThreshold : ℚ
deriving DecidableEq

/-- Documented default options. -/
def defaultConfig : Config := ⟨5, 6, 7 / 10, 3 / 10, 3, 2, 60, 97 / 100⟩

/-- Modelled from the spec: option validation fails fast on negative
weights or `topCredits` out of its 2–4 range. -/
def validateConfig (c : Config) : Bool :=
  decide (0 ≤ c.denseWeight) && decide (0 ≤ c.lexicalWeight) &&
    decide (2 ≤ c.topCredits) && decide (c.topCredits ≤ 4)

/-- Failure taxonomy of the pipeline; the propagation policy must surface
only the configuration arm. -/
inductive SearchError where
  | configErr (msg : String)
  | backendErr (msg : String)
deriving DecidableEq

/-- Retrieval backends: `none` models an absent, failing or timed-out
backend call. -/
structure Env where
  dense : String → Option (List Scored)
  lexical : String → Option (List Scored)

/-- Environment in which every backend call times out. -/
def emptyEnv : Env := ⟨fun _ => none, fun _ => none⟩

/-- Result ordering after cross-list fusion: higher fused score first, ties
broken by ascending `chunk_id`. -/
def scoredLE (a b : Scored) : Prop :=
  b.score < a.score ∨ (b.score = a.score ∧ a.chunk.chunk_id ≤ b.chunk.chunk_id)

instance : DecidableRel scoredLE := fun a b => by
  unfold scoredLE
  infer_instance

instance : IsTotal Scored scoredLE := by
  constructor
  intro a b
  rcases lt_trichotomy a.score b.score with h | h | h
  · exact Or.inr (Or.inl h)
  · rcases Nat.le_total a.chunk.chunk_id b.chunk.chunk_id with hc | hc
    · exact Or.inl (Or.inr ⟨h.symm, hc⟩)
    · exact Or.inr (Or.inr ⟨h, hc⟩)
  · exact Or.inl (Or.inl h)

instance : IsTrans Scored scoredLE := by
  constructor
  intro a b c hab hbc
  rcases hab with hab | ⟨hab, hab'⟩
  · rcases hbc with hbc | ⟨hbc, _⟩
    · exact Or.inl (lt_trans hbc hab)
    · exact Or.inl (hbc ▸ hab)
  · rcases hbc with hbc | ⟨hbc, hbc'⟩
    · exact Or.inl (hab ▸ hbc)
    · exact Or.inr ⟨hbc.trans hab, le_trans hab' hbc'⟩

/-- Modelled from the spec: the cross-list RRF ranking — every unique chunk
of the per-sub-query lists, scored by `rrfFuse` over the lists' rank
positions and sorted by fused score (ties by ascending chunk id). -/
def rrfRankChunks (k : ℚ) (lists : List (List Scored)) : List Scored :=
  List.insertionSort scoredLE
    ((dedupFirst ((lists.map (fun l => l.map (fun s => s.chunk))).flatten)).map
      (fun c => ⟨c, rrfFuse k (lists.map (fun l => l.map (fun s => s.chunk.chunk_id))) c.chunk_id⟩))

/-- Modelled from the spec: the post-validation stages of `search`, each
backend call degraded to an empty list when it returns nothing. -/
def searchPipeline (cfg : Config) (env : Env) (q : String) : List Scored :=
  (((credit_grouper cfg.topCredits cfg.maxChunksPerCredit
      (remove_near_duplicates cfg.dedupThreshold
        (rrfRankChunks cfg.rrfK
          ((expand_query q cfg.maxSubqueries).map (fun sq =>
            fuseIntra cfg.denseWeight cfg.lexicalWeight
              ((env.dense sq).getD []) ((env.lexical sq).getD [])))))).map
    (fun g => g.chunks)).flatten).take cfg.limit

/-- Modelled from the spec: `search` — validation first, then the degrading
pipeline; only a configuration error is ever returned. -/
def search (cfg : Config) (env : Env) (q : String) : Except SearchError (List Scored) :=
  if validateConfig cfg = false then
    Except.error (SearchError.configErr "invalid configuration")
  else Except.ok (searchPipeline cfg env q)

theorem flatten_eq_nil_of_forall {α : Type} :
    ∀ L : List (List α), (∀ l ∈ L, l = []) → L.flatten = []
  | [], _ => rfl
  | l :: L, h => by
    rw [List.flatten_cons, h l (List.mem_cons_self _ _),
      flatten_eq_nil_of_forall L (fun m hm => h m (List.mem_cons_of_mem _ hm))]
    rfl

theorem rrfRankChunks_all_nil (k : ℚ) (sqs : List String) :
    rrfRankChunks k (sqs.map (fun _ => ([] : List Scored))) = [] := by
  rw [rrfRankChunks]
  have h : ((sqs.map (fun _ => ([] : List Scored))).map
      (fun l => l.map (fun s => s.chunk))).flatten = [] := by
    refine flatten_eq_nil_of_forall _ ?_
    intro l hl
    rcases List.mem_map.1 hl with ⟨m, hm, hml⟩
    rcases List.mem_map.1 hm with ⟨_, _, hmm⟩
    rw [← hml, ← hmm]
    rfl
  rw [h]
  rfl

/-- Timed-out (or absent) backends on every sub-query still produce a valid
empty result: shared degradation lemma for the pipeline. -/
theorem search_all_timeout (cfg : Config) (env : Env) (q : String)
    (hv : validateConfig cfg = true)
    (hd : ∀ sq, env.dense sq = none) (he : ∀ sq, env.lexical sq = none) :
    search cfg env q = Except.ok [] := by
  rw [search, if_neg (by simp [hv])]
  have hmap : (expand_query q cfg.maxSubqueries).map (fun sq =>
      fuseIntra cfg.denseWeight cfg.lexicalWeight
        ((env.dense sq).getD []) ((env.lexical sq).getD [])) =
      (expand_query q cfg.maxSubqueries).map (fun _ => ([] : List Scored)) := by
    refine List.map_congr_left ?_
    intro sq _
    rw [hd sq, he sq]
    rfl
  rw [searchPipeline, hmap, rrfRankChunks_all_nil]
  have h0 : remove_near_duplicates cfg.dedupThreshold [] = [] := rfl
  have h1 : credit_grouper cfg.topCredits cfg.maxChunksPerCredit [] = [] := by
    rw [credit_grouper]
    have hmk : mkGroups ([] : List Scored) = [] := rfl
    rw [hmk]
    simp [List.insertionSort]
  rw [h0, h1]
  simp

/-- C3: only a configuration error is ever surfaced by `search` — every
outcome is either a `configErr` or a well-formed list (never a backend
error) — and when every backend call times out for every sub-query,
`search` returns the empty ordered list and no error. -/
theorem search_error_policy (cfg : Config) (env : Env) (q : String) :
    ((∃ msg, search cfg env q = Except.error (SearchError.configErr msg)) ∨
      (∃ res, search cfg env q = Except.ok res)) ∧
    (validateConfig cfg = true →
      (∀ sq, env.dense sq = none) → (∀ sq, env.lexical sq = none) →
      search cfg env q = Except.ok []) := by
  constructor
  · cases hv : validateConfig cfg with
    | false => exact Or.inl ⟨"invalid configuration", by simp [search, hv]⟩
    | true => exact Or.inr ⟨searchPipeline cfg env q, by simp [search, hv]⟩
  · exact search_all_timeout cfg env q

/-- C3 witness: under the default options, with both backends timing out on
every sub-query, `search` returns the empty list. -/
theorem search_error_policy_witness :
    search defaultConfig emptyEnv "energy efficiency requirements" = Except.ok [] :=
  (search_error_policy defaultConfig emptyEnv "energy efficiency requirements").2
    (by norm_num [validateConfig, defaultConfig]) (fun _ => rfl) (fun _ => rfl)

theorem credit_grouper_chunk_len (top maxPer : Nat) (l : List Scored) :
    ∀ g ∈ credit_grouper top maxPer l, g.chunks.length ≤ maxPer := by
  intro g hg
  rcases List.mem_map.1 hg with ⟨g₀, _, hgeq⟩
  rw [← hgeq]
  exact List.length_take_le _ _

theorem credit_grouper_credit_eq (top maxPer : Nat) (l : List Scored) :
    ∀ g ∈ credit_grouper top maxPer l, ∀ s ∈ g.chunks, s.chunk.credit_id = g.credit_id := by
  intro g hg s hs
  rcases List.mem_map.1 hg with ⟨g₀, hg₀, hgeq⟩
  have hg₀mk : g₀ ∈ mkGroups l := by
    have h1 := (List.take_sublist top _).subset hg₀
    exact (List.mem_insertionSort groupLE).1 h1
  have hs₀ : s ∈ g₀.chunks := by
    rw [← hgeq] at hs
    have h2 := (List.take_sublist maxPer _).subset hs
    exact (List.mem_insertionSort chunkPriorityGE).1 h2
  obtain ⟨hch, _, _⟩ := mem_mkGroups_chunks hg₀mk
  rw [hch, membersOf, List.mem_filter] at hs₀
  rw [← hgeq]
  simpa using hs₀.2

theorem credit_grouper_credits_nodup (top maxPer : Nat) (l : List Scored) :
    ((credit_grouper top maxPer l).map (fun g => g.credit_id)).Nodup := by
  rw [credit_grouper, List.map_map]
  have hcomp : ((fun g : ResultGroup => g.credit_id) ∘ truncateGroup maxPer) =
      (fun g : ResultGroup => g.credit_id) := rfl
  rw [hcomp, List.map_take]
  refine (List.take_sublist top _).nodup ?_
  have hperm : List.Perm (List.insertionSort groupLE (mkGroups l)) (mkGroups l) :=
    List.perm_insertionSort _ _
  refine ((hperm.map (fun g => g.credit_id)).nodup_iff).2 ?_
  rw [mkGroups, List.map_map]
  have hid : ((fun g : ResultGroup => g.credit_id) ∘ fun cid =>
      (⟨cid, maxScore (membersOf l cid), membersOf l cid⟩ : ResultGroup)) =
      fun cid : CreditId => cid := rfl
  rw [hid]
  simpa using dedupFirst_nodup _

theorem flatten_filter_length_le (maxPer : Nat) (cid : CreditId) :
    ∀ G : List ResultGroup,
      (∀ g ∈ G, ∀ s ∈ g.chunks, s.chunk.credit_id = g.credit_id) →
      (∀ g ∈ G, g.chunks.length ≤ maxPer) →
      (G.map (fun g => g.credit_id)).Nodup →
      (((G.map (fun g => g.chunks)).flatten).filter
        (fun s => s.chunk.credit_id == cid)).length ≤ maxPer := by
  intro G
  induction G with
  | nil => intro _ _ _; simp
  | cons g G ih =>
    intro hcred hlen hnodup
    rw [List.map_cons, List.flatten_cons, List.filter_append, List.length_append]
    by_cases hc : g.credit_id = cid
    · have hrest : ((G.map (fun g => g.chunks)).flatten).filter
          (fun s => s.chunk.credit_id == cid) = [] := by
        rw [List.filter_eq_nil_iff]
        intro s hsmem
        rcases List.mem_flatten.1 hsmem with ⟨cl, hcl, hscl⟩
        rcases List.mem_map.1 hcl with ⟨g', hg', hgcl⟩
        have hseq : s.chunk.credit_id = g'.credit_id :=
          hcred g' (List.mem_cons_of_mem _ hg') s (hgcl ▸ hscl)
        have hg'ne : g'.credit_id ≠ cid := by
          intro he
          have hmem : g.credit_id ∈ G.map (fun g => g.credit_id) := by
            rw [hc, ← he]
            exact List.mem_map_of_mem _ hg'
          exact (List.nodup_cons.1 hnodup).1 hmem
        simp [hseq, hg'ne]
      rw [hrest]
      simp only [List.length_nil, Nat.add_zero]
      calc (g.chunks.filter (fun s => s.chunk.credit_id == cid)).length
          ≤ g.chunks.length := List.length_filter_le _ _
      _ ≤ maxPer := hlen g (List.mem_cons_self _ _)
    · have hg0 : g.chunks.filter (fun s => s.chunk.credit_id == cid) = [] := by
        rw [List.filter_eq_nil_iff]
        intro s hs
        have := hcred g (List.mem_cons_self _ _) s hs
        simp [this, hc]
      rw [hg0]
      simp only [List.length_nil, Nat.zero_add]
      exact ih (fun g' h => hcred g' (List.mem_cons_of_mem _ h))
        (fun g' h => hlen g' (List.mem_cons_of_mem _ h)) (List.nodup_cons.1 hnodup).2

theorem flatten_length_le_mul (m : Nat) :
    ∀ G : List ResultGroup, (∀ g ∈ G, g.chunks.length ≤ m) →
      ((G.map (fun g => g.chunks)).flatten).length ≤ G.length * m := by
  intro G
  induction G with
  | nil => intro _; simp
  | cons g G ih =>
    intro h
    rw [List.map_cons, List.flatten_cons, List.length_append, List.length_cons]
    have h1 := h g (List.mem_cons_self _ _)
    have h2 := ih (fun g' hg' => h g' (List.mem_cons_of_mem _ hg'))
    calc g.chunks.length + ((G.map (fun g => g.chunks)).flatten).length
        ≤ m + G.length * m := Nat.add_le_add h1 h2
    _ = (G.length + 1) * m := by ring

theorem nodup_subset_length {α : Type} [DecidableEq α] {l₁ l₂ : List α}
    (h₁ : l₁.Nodup) (hsub : l₁ ⊆ l₂) : l₁.length ≤ l₂.length := by
  calc l₁.length = l₁.toFinset.card := (List.toFinset_card_of_nodup h₁).symm
  _ ≤ l₂.toFinset.card := Finset.card_le_card (fun a ha =>
      List.mem_toFinset.2 (hsub (List.mem_toFinset.1 ha)))
  _ ≤ l₂.length := l₂.toFinset_card_le

/-- C6: every successful `search` response has at most `limit` results, at
most `topCredits` distinct `credit_id` values, at most `maxChunksPerCredit`
chunks of any one credit, and hence at most
`topCredits × maxChunksPerCredit` results in total. -/
theorem search_result_bounds (cfg : Config) (env : Env) (q : String) (res : List Scored)
    (h : search cfg env q = Except.ok res) :
    res.length ≤ cfg.limit ∧
    (dedupFirst (res.map (fun s => s.chunk.credit_id))).length ≤ cfg.topCredits ∧
    (∀ cid, (res.filter (fun s => s.chunk.credit_id == cid)).length ≤
      cfg.maxChunksPerCredit) ∧
    res.length ≤ cfg.topCredits * cfg.maxChunksPerCredit := by
  have hres : res = searchPipeline cfg env q := by
    rw [search] at h
    by_cases hv : validateConfig cfg = false
    · rw [if_pos hv] at h
      exact absurd h (by simp)
    · rw [if_neg hv] at h
      exact (Except.ok.inj h).symm
  subst hres
  rw [searchPipeline]
  set deduped := remove_near_duplicates cfg.dedupThreshold
    (rrfRankChunks cfg.rrfK
      ((expand_query q cfg.maxSubqueries).map (fun sq =>
        fuseIntra cfg.denseWeight cfg.lexicalWeight
          ((env.dense sq).getD []) ((env.lexical sq).getD [])))) with hdedup
  set G := credit_grouper cfg.topCredits cfg.maxChunksPerCredit deduped with hG
  have hGlen : G.length ≤ cfg.topCredits := by
    rw [hG, credit_grouper, List.length_map]
    exact List.length_take_le _ _
  have hGchunk := credit_grouper_chunk_len cfg.topCredits cfg.maxChunksPerCredit deduped
  have hGcred := credit_grouper_credit_eq cfg.topCredits cfg.maxChunksPerCredit deduped
  have hGnodup := credit_grouper_credits_nodup cfg.topCredits cfg.maxChunksPerCredit deduped
  refine ⟨List.length_take_le _ _, ?_, ?_, ?_⟩
  · have hsub : ∀ x ∈ dedupFirst ((((G.map (fun g => g.chunks)).flatten).take cfg.limit).map
        (fun s => s.chunk.credit_id)), x ∈ G.map (fun g => g.credit_id) := by
      intro x hx
      have hx1 := dedupFirst_subset _ x hx
      rcases List.mem_map.1 hx1 with ⟨s, hs, hsx⟩
      have hs1 : s ∈ (G.map (fun g => g.chunks)).flatten :=
        (List.take_sublist _ _).subset hs
      rcases List.mem_flatten.1 hs1 with ⟨cl, hcl, hscl⟩
      rcases List.mem_map.1 hcl with ⟨g, hgmem, hgcl⟩
      have := hGcred g hgmem s (hgcl ▸ hscl)
      rw [← hsx, this]
      exact List.mem_map_of_mem _ hgmem
    have h1 := nodup_subset_length (dedupFirst_nodup _) hsub
    rw [List.length_map] at h1
    exact le_trans h1 hGlen
  · intro cid
    calc ((((G.map (fun g => g.chunks)).flatten).take cfg.limit).filter
          (fun s => s.chunk.credit_id == cid)).length
        ≤ (((G.map (fun g => g.chunks)).flatten).filter
          (fun s => s.chunk.credit_id == cid)).length :=
          ((List.take_sublist _ _).filter _).length_le
    _ ≤ cfg.maxChunksPerCredit :=
          flatten_filter_length_le cfg.maxChunksPerCredit cid G hGcred hGchunk hGnodup
  · calc (((G.map (fun g => g.chunks)).flatten).take cfg.limit).length
        ≤ ((G.map (fun g => g.chunks)).flatten).length := (List.take_sublist _ _).length_le
    _ ≤ G.length * cfg.maxChunksPerCredit := flatten_length_le_mul _ G hGchunk
    _ ≤ cfg.topCredits * cfg.maxChunksPerCredit :=
          Nat.mul_le_mul_right _ hGlen

/-- C6 witness: the default configuration with fully timed-out backends
yields the empty response, within all bounds. -/
theorem search_result_bounds_witness :
    ([] : List Scored).length ≤ defaultConfig.limit :=
  (search_result_bounds defaultConfig emptyEnv "water" []
    (search_all_timeout defaultConfig emptyEnv "water"
      (by norm_num [validateConfig, defaultConfig]) (fun _ => rfl) (fun _ => rfl))).1

/-! ### Demo front-end: `queryRAGAPI` (demo_landing_page/script.js)

Embedded from the source: the whole body is one `try` block; `fetch` either
rejects (network failure) or yields a response; a non-ok response makes the
block throw `Error("API request failed: " ++ status)`; otherwise
`response.json()` either rejects (parse failure) or yields the payload.
The `catch` arm turns any of these exceptions into
`{ error: true, message: String(error) }`. -/

/-- Outcome of `response.json()` and of the guarded block: a payload (kept
abstract as a string) or a thrown error message. -/
abbrev JsOutcome := Except String String

/-- HTTP response as `queryRAGAPI` observes it. -/
structure HttpResponse where
  ok : Bool
  status : Nat
  jsonBody : JsOutcome

/-- Outcome of the `fetch` call: rejection with an error message, or a
response. -/
inductive FetchOutcome where
  | networkFailure (msg : String)
  | response (r : HttpResponse)

/-- Value returned by `queryRAGAPI` to its caller: parsed data, or the
`{ error: true, message }` object built in the catch arm. -/
inductive ApiReturn where
  | payload (data : String)
  | errorObj (message : String)
deriving DecidableEq

/-- Embedded from demo_landing_page/script.js, `queryRAGAPI` (both
identical copies): the try block awaits `fetch`, throws on `!response.ok`
with the status in the message, awaits `response.json()`, and returns the
data; the catch arm returns `{ error: true, message: String(error) }`. -/
def queryRAGAPI (outcome : FetchOutcome) : ApiReturn :=
  let attempt : JsOutcome :=
    match outcome with
    | FetchOutcome.networkFailure msg => Except.error msg
    | FetchOutcome.response r =>
      if r.ok = false then Except.error ("API request failed: " ++ toString r.status)
      else r.jsonBody
  match attempt with
  | Except.ok data => ApiReturn.payload data
  | Except.error e => ApiReturn.errorObj e

/-- C9: `queryRAGAPI` is total at its interface — every outcome yields
either parsed data or an `{ error: true, message }` object, never a
propagated exception; a network failure, a non-OK HTTP status and a JSON
parse failure each produce the error object carrying a message string. -/
theorem queryRAGAPI_total :
    (∀ outcome, (∃ d, queryRAGAPI outcome = ApiReturn.payload d) ∨
      (∃ m, queryRAGAPI outcome = ApiReturn.errorObj m)) ∧
    (∀ msg, queryRAGAPI (FetchOutcome.networkFailure msg) = ApiReturn.errorObj msg) ∧
    (∀ r, r.ok = false → queryRAGAPI (FetchOutcome.response r) =
      ApiReturn.errorObj ("API request failed: " ++ toString r.status)) ∧
    (∀ r e, r.ok = true → r.jsonBody = Except.error e →
      queryRAGAPI (FetchOutcome.response r) = ApiReturn.errorObj e) ∧
    (∀ r d, r.ok = true → r.jsonBody = Except.ok d →
      queryRAGAPI (FetchOutcome.response r) = ApiReturn.payload d) := by
  refine ⟨?_, ?_, ?_, ?_, ?_⟩
  · intro outcome
    rcases outcome with msg | r
    · exact Or.inr ⟨msg, rfl⟩
    · by_cases hok : r.ok = false
      · exact Or.inr ⟨"API request failed: " ++ toString r.status,
          by simp [queryRAGAPI, hok]⟩
      · cases hbody : r.jsonBody with
        | ok d => exact Or.inl ⟨d, by simp [queryRAGAPI, hok, hbody]⟩
        | error e => exact Or.inr ⟨e, by simp [queryRAGAPI, hok, hbody]⟩
  · intro msg
    rfl
  · intro r hok
    simp [queryRAGAPI, hok]
  · intro r e hok hbody
    simp [queryRAGAPI, hok, hbody]
  · intro r d hok hbody
    simp [queryRAGAPI, hok, hbody]

/-- C9 witness: a 500 response produces the error object with the status in
its message. -/
theorem queryRAGAPI_total_witness :
    queryRAGAPI (FetchOutcome.response ⟨false, 500, Except.error "unused"⟩) =
      ApiReturn.errorObj ("API request failed: " ++ toString 500) :=
  queryRAGAPI_total.2.2.1 ⟨false, 500, Except.error "unused"⟩ rfl

/-! ### Demo front-end: file-upload handler (demo_landing_page/script.js)

Embedded from the source: on a file-input change the handler calls
`reader.readAsText(f.slice(0, 20000))`; `onload` stores
`reader.result || ''` into `uploadedDocument`.  Files are embedded as byte
lists and the reader's text decoding as a function producing `none` on
failure (the `||` fallback yields the empty string). -/

/-- JavaScript `Blob.slice(start, end)` on a byte list. -/
def fileSlice (s e : Nat) (f : List Nat) : List Nat := (f.drop s).take (e - s)

/-- Embedded from demo_landing_page/script.js, the file-input change
handler (both identical copies): the text stored in `uploadedDocument`
after a successful read of `f.slice(0, 20000)`, with the `|| ''` fallback. -/
def handleFileUpload (decode : List Nat → Option String) (f : List Nat) : String :=
  (decode (fileSlice 0 20000 f)).getD ""

/-- C10: the document text stored for later analysis is read from at most
the first 20000 bytes of the uploaded file — the stored value is a function
of `f.take 20000` alone (the slice never exceeds 20000 bytes), so files
agreeing on their first 20000 bytes store identical text regardless of
total size. -/
theorem handleFileUpload_first_20000 (decode : List Nat → Option String) (f : List Nat) :
    handleFileUpload decode f = (decode (f.take 20000)).getD "" ∧
    (fileSlice 0 20000 f).length ≤ 20000 ∧
    (∀ g : List Nat, f.take 20000 = g.take 20000 →
      handleFileUpload decode f = handleFileUpload decode g) := by
  have hslice : fileSlice 0 20000 f = f.take 20000 := by
    rw [fileSlice, List.drop_zero]
  refine ⟨by rw [handleFileUpload, hslice], ?_, ?_⟩
  · rw [hslice]
    exact List.length_take_le _ _
  · intro g hfg
    have hgslice : fileSlice 0 20000 g = g.take 20000 := by
      rw [fileSlice, List.drop_zero]
    rw [handleFileUpload, handleFileUpload, hslice, hgslice, hfg]

/-- C10 witness: a 5-byte file and its 3-byte truncation at 20000 bytes
store the same text under any decoder that returns the raw length. -/
theorem handleFileUpload_first_20000_witness :
    handleFileUpload (fun bs => some (toString bs.length)) [1, 2, 3] = "3" :=
  ((handleFileUpload_first_20000 (fun bs => some (toString bs.length)) [1, 2, 3]).2.2
    [1, 2, 3] rfl).symm ▸
    ((handleFileUpload_first_20000 (fun bs => some (toString bs.length)) [1, 2, 3]).1.trans
      (by rfl))

end Albedo
